import Mathlib

/-
Verification development for the chinchilib raycaster.

The Rust sources are embedded shallowly:
  * `f32` values are modelled as exact rationals (`ℚ`); the trigonometric
    functions `cos`/`sin` applied to a heading are passed around as oracle
    parameters `cf sf : ℚ → ℚ`, so every theorem quantifying over them in
    particular covers the real cosine/sine.  The heading update of the two
    pan operations is the exception: there the rounding of the `f32`
    addition itself matters (it makes the iterated pans drift from the
    exact multiples and eventually absorb the step), so it is modelled
    exactly by `rnd32` (round to nearest, ties to even).
  * the `f32` constants `PI`, `FRAC_PI_2`, `FRAC_PI_8` are the exact rational
    values of the corresponding IEEE-754 single-precision constants
    (13176795 / 2^22 and its exact halvings).
  * the Rust saturating cast `f32 as usize` truncates toward zero and clamps
    below at 0; it is modelled by `toCell`.
  * the unbounded `while` loop of `distance_to_wall` is modelled with an
    explicit fuel argument: `none` means the loop is still running after
    `fuel` iterations.
  * slice indexing that would panic out of range, and `usize` subtraction
    that would underflow, are modelled with `Option`: `none` is a panic.
-/

namespace Chinchilib

/-- The exact rational value of the IEEE-754 `f32` constant
`std::f32::consts::PI` (bit pattern 0x40490FDB): 13176795 / 2^22.
The `f32` constants `FRAC_PI_2` and `FRAC_PI_8` are exactly `piF / 2`
and `piF / 8`. -/
def piF : ℚ := 13176795 / 4194304

/-- `degs_to_rads` from src/raycast.rs: `degs as f32 * (PI / 180.0)`. -/
def degs_to_rads (degs : ℕ) : ℚ := degs * (piF / 180)

/-- The grid map: `Array2D<u8>` from src/raycast.rs, stored as a list of
rows; cells hold byte values (`' '` = 32, `'X'` = 88). -/
abbrev GridMap := List (List ℕ)

/-- `Array2D::row_len`: the number of elements in each row. -/
def row_len (m : GridMap) : ℕ := (m.headD []).length

/-- `Array2D::column_len`: the number of elements in each column,
i.e. the number of rows. -/
def column_len (m : GridMap) : ℕ := m.length

/-- Indexing `map[(a, b)]`: row `a`, column `b`. -/
def cell (m : GridMap) (a b : ℕ) : ℕ := (m.getD a []).getD b 0

/-- One `map[(a, b)] = v` assignment from `World::default`. -/
def set2 (m : GridMap) (a b v : ℕ) : GridMap := m.set a ((m.getD a []).set b v)

/-- The map built by `World::default` in src/raycast.rs: a 5×5 grid filled
with `' '` (32), then the border assignments `map[(0,0..=4)] = 'X'`,
`map[(1,0)] .. map[(4,0)] = 'X'`, `map[(4,0..=4)] = 'X'`,
`map[(1,4)] .. map[(3,4)] = 'X'` (88), in the source's order. -/
def default_map : GridMap :=
  set2 (set2 (set2 (set2 (set2 (set2 (set2 (set2 (set2 (set2 (set2 (set2
    (set2 (set2 (set2 (set2 (set2
      (List.replicate 5 (List.replicate 5 32))
      0 0 88) 0 1 88) 0 2 88) 0 3 88) 0 4 88)
      1 0 88) 2 0 88) 3 0 88) 4 0 88) 4 0 88)
      4 1 88) 4 2 88) 4 3 88) 4 4 88)
      1 4 88) 2 4 88) 3 4 88

/-- The Rust cast `f32 as usize`: truncation toward zero, saturating
below at 0 (a negative or NaN input becomes 0). -/
def toCell (q : ℚ) : ℕ := if q < 0 then 0 else ⌊q⌋.toNat

/-- `World` from src/raycast.rs. -/
structure World where
  map : GridMap
  player_pos : ℚ × ℚ
  player_heading : ℚ
  player_fov : ℚ
deriving DecidableEq

/-- `World::default`: the bordered 5×5 map, player at (2.0, 2.0),
heading 0, fov 70°. -/
def World.default : World :=
  { map := default_map
    player_pos := (2, 2)
    player_heading := 0
    player_fov := degs_to_rads 70 }

/-- `World::is_wall` from src/raycast.rs: casts both coordinates with
`as usize`, then `coords.0 >= row_len || coords.1 >= column_len ||
map[coords] == 'X'`. -/
def is_wall (m : GridMap) (coords : ℚ × ℚ) : Bool :=
  decide (row_len m ≤ toCell coords.1)
    || decide (column_len m ≤ toCell coords.2)
    || (cell m (toCell coords.1) (toCell coords.2) == 88)

/-- `move_forward` from src/raycast.rs:
`(pos.0 + direction.cos() * distance, pos.1 + direction.sin() * distance)`,
with `cos`/`sin` abstracted as the oracles `cf`/`sf`. -/
def move_forward (cf sf : ℚ → ℚ) (pos : ℚ × ℚ) (direction distance : ℚ) :
    ℚ × ℚ :=
  (pos.1 + cf direction * distance, pos.2 + sf direction * distance)

/-- The `while` loop of `World::distance_to_wall`, with fuel: starting at
the given accumulated `distance`, recompute
`coords = move_forward(player_pos, heading, distance)`; if `is_wall` stop
and return the distance, else add 0.01 and continue.  `none` means the
loop has not stopped after `fuel` iterations — the Rust loop itself has
no bound at all. -/
def march (cf sf : ℚ → ℚ) (m : GridMap) (pos : ℚ × ℚ) (heading : ℚ) :
    ℚ → ℕ → Option ℚ
  | _, 0 => none
  | distance, fuel + 1 =>
    if is_wall m (move_forward cf sf pos heading distance) then some distance
    else march cf sf m pos heading (distance + 1 / 100) fuel

/-- `World::distance_to_wall`: the march starts at distance 0.0 from the
player's position. -/
def World.distance_to_wall (cf sf : ℚ → ℚ) (w : World) (heading : ℚ)
    (fuel : ℕ) : Option ℚ :=
  march cf sf w.map w.player_pos heading 0 fuel

/-- `Heading` from src/raycast.rs (the movement command). -/
inductive Heading where
  | Forward
  | Backward
  | Right
  | Left

/-- `World::move_player`: resolve the command to a heading offset added to
the current heading, march 0.2 along it from the current position, and
commit only when the candidate is not a wall. -/
def World.move_player (cf sf : ℚ → ℚ) (w : World) (h : Heading) : World :=
  let patate := w.player_heading +
    (match h with
      | Heading.Forward => 0
      | Heading.Backward => piF
      | Heading.Left => 0 - piF / 2
      | Heading.Right => piF / 2)
  let new_pos := move_forward cf sf w.player_pos patate (2 / 10)
  if is_wall w.map new_pos then w else { w with player_pos := new_pos }

/-- The exponent of the unit in the last place of the `f32` nearest `q`:
`Int.log 2 |q|` clamped below at the subnormal exponent −126, minus the 23
fraction bits. -/
def ulpExp (q : ℚ) : ℤ := max (Int.log 2 |q|) (-126) - 23

/-- Round `q` to the nearest IEEE-754 single-precision value, ties to
even, as the exact rational it denotes.  (Overflow to infinity is not
modelled; every value this development rounds stays far below the `f32`
maximum.)  This is the result of a single correctly rounded `f32`
operation whose exact result is `q`. -/
def rnd32 (q : ℚ) : ℚ :=
  if q = 0 then 0
  else if q / 2 ^ ulpExp q - ⌊q / 2 ^ ulpExp q⌋ < 1 / 2 then
    (⌊q / 2 ^ ulpExp q⌋ : ℚ) * 2 ^ ulpExp q
  else if 1 / 2 < q / 2 ^ ulpExp q - ⌊q / 2 ^ ulpExp q⌋ then
    (⌊q / 2 ^ ulpExp q⌋ + 1 : ℚ) * 2 ^ ulpExp q
  else if 2 ∣ ⌊q / 2 ^ ulpExp q⌋ then (⌊q / 2 ^ ulpExp q⌋ : ℚ) * 2 ^ ulpExp q
  else (⌊q / 2 ^ ulpExp q⌋ + 1 : ℚ) * 2 ^ ulpExp q

/-- `f32` addition: the exact sum, correctly rounded. -/
def f32add (a b : ℚ) : ℚ := rnd32 (a + b)

/-- `f32` subtraction: the exact difference, correctly rounded. -/
def f32sub (a b : ℚ) : ℚ := rnd32 (a - b)

/-- `World::pan_left`: `player_heading -= FRAC_PI_8`, one rounded `f32`
subtraction.  (The pans are the one place this development models the
`f32` rounding itself, because the iterated-pan behaviour depends on
it: the rounded sum drifts from the exact one and absorbs the step
entirely once the heading is large.) -/
def World.pan_left (w : World) : World :=
  { w with player_heading := f32sub w.player_heading (piF / 8) }

/-- `World::pan_right`: `player_heading += FRAC_PI_8`, one rounded `f32`
addition. -/
def World.pan_right (w : World) : World :=
  { w with player_heading := f32add w.player_heading (piF / 8) }

/-- `generate_ray_angles` from src/raycast.rs:
`lower_half = (fov / 2.0) * -1.0`, `step = fov / (ray_quantity - 1) as f32`,
and angle `idx` is `step * idx + lower_half`.  For `ray_quantity == 1` the
`usize` subtraction gives 0 and the `f32` division by zero makes the step
non-finite, so the single angle (`idx = 0`, `∞ * 0`) is NaN; a non-finite
angle is modelled as `none`. -/
def generate_ray_angles (ray_quantity : ℕ) (fov : ℚ) : List (Option ℚ) :=
  let lower_half := fov / 2 * (-1)
  (List.range ray_quantity).map fun idx : ℕ =>
    if ray_quantity - 1 = 0 then none
    else some (fov / ((ray_quantity - 1 : ℕ) : ℚ) * (idx : ℚ) + lower_half)

/-! Basic facts about the saturating cast and the wall test. -/

theorem toCell_of_neg {q : ℚ} (h : q < 0) : toCell q = 0 := by
  simp [toCell, h]

theorem toCell_of_nonneg {q : ℚ} (h : 0 ≤ q) : toCell q = ⌊q⌋.toNat := by
  simp [toCell, not_lt.mpr h]

theorem le_toCell_of_le {n : ℕ} {q : ℚ} (h : (n : ℚ) ≤ q) (hq : 0 ≤ q) :
    n ≤ toCell q := by
  rw [toCell_of_nonneg hq]
  have hfl : (n : ℤ) ≤ ⌊q⌋ := Int.le_floor.mpr (by exact_mod_cast h)
  omega

theorem toCell_lt_of_lt {q : ℚ} {n : ℕ} (hn : 0 < n) (h : q < n) :
    toCell q < n := by
  rcases lt_or_le q 0 with hq | hq
  · rw [toCell_of_neg hq]; exact hn
  · rw [toCell_of_nonneg hq]
    have hfl : ⌊q⌋ < (n : ℤ) := Int.floor_lt.mpr (by exact_mod_cast h)
    omega

theorem le_of_toCell_le {q : ℚ} {n : ℕ} (hn : 1 ≤ n) (h : n ≤ toCell q) :
    (n : ℚ) ≤ q := by
  rcases lt_or_le q 0 with hq | hq
  · rw [toCell_of_neg hq] at h; omega
  · rw [toCell_of_nonneg hq] at h
    have hfl : (n : ℤ) ≤ ⌊q⌋ := by omega
    exact_mod_cast Int.le_floor.mp hfl

theorem lt_of_toCell_le {q : ℚ} {k : ℕ} (h : toCell q ≤ k) : q < k + 1 := by
  rcases lt_or_le q 0 with hq | hq
  · have : (0 : ℚ) ≤ k + 1 := by positivity
    linarith
  · rw [toCell_of_nonneg hq] at h
    have h0 : 0 ≤ ⌊q⌋ := Int.floor_nonneg.mpr hq
    have hfl : ⌊q⌋ ≤ (k : ℤ) := by omega
    have := Int.lt_floor_add_one q
    have hcast : (⌊q⌋ : ℚ) + 1 ≤ (k : ℚ) + 1 := by exact_mod_cast add_le_add_right hfl 1
    linarith

theorem toCell_mono {q r : ℚ} (h : q ≤ r) : toCell q ≤ toCell r := by
  rcases lt_or_le q 0 with hq | hq
  · rw [toCell_of_neg hq]; exact Nat.zero_le _
  · rw [toCell_of_nonneg hq, toCell_of_nonneg (hq.trans h)]
    have := Int.floor_le_floor (α := ℚ) h
    omega

theorem is_wall_iff (m : GridMap) (p : ℚ × ℚ) :
    is_wall m p = true ↔
      row_len m ≤ toCell p.1 ∨ column_len m ≤ toCell p.2 ∨
        cell m (toCell p.1) (toCell p.2) = 88 := by
  simp [is_wall, Bool.or_eq_true, decide_eq_true_eq, or_assoc]

theorem is_wall_eq_false (m : GridMap) (p : ℚ × ℚ) :
    is_wall m p = false ↔
      toCell p.1 < row_len m ∧ toCell p.2 < column_len m ∧
        cell m (toCell p.1) (toCell p.2) ≠ 88 := by
  rw [← Bool.not_eq_true, is_wall_iff]
  push_neg
  tauto

/-! Concrete facts about the default map and the all-empty map. -/

theorem default_map_row_len : row_len default_map = 5 := by decide

theorem default_map_column_len : column_len default_map = 5 := by decide

theorem default_map_edge_row {b : ℕ} (hb : b < 5) : cell default_map 0 b = 88 := by
  interval_cases b <;> decide

theorem default_map_edge_col {a : ℕ} (ha : a < 5) : cell default_map a 0 = 88 := by
  interval_cases a <;> decide

theorem default_map_open {a b : ℕ} (ha : a < 5) (hb : b < 5)
    (h : cell default_map a b ≠ 88) : 1 ≤ a ∧ a ≤ 3 ∧ 1 ≤ b ∧ b ≤ 3 := by
  interval_cases a <;> interval_cases b <;> revert h <;> decide

theorem default_map_pos_bounds {p : ℚ × ℚ}
    (h : is_wall default_map p = false) :
    1 ≤ p.1 ∧ p.1 < 4 ∧ 1 ≤ p.2 ∧ p.2 < 4 := by
  rw [is_wall_eq_false, default_map_row_len, default_map_column_len] at h
  obtain ⟨ha, hb, hc⟩ := h
  obtain ⟨ha1, ha3, hb1, hb3⟩ := default_map_open ha hb hc
  refine ⟨?_, ?_, ?_, ?_⟩
  · exact_mod_cast le_of_toCell_le le_rfl ha1
  · have := lt_of_toCell_le (k := 3) ha3; norm_num at this ⊢; linarith
  · exact_mod_cast le_of_toCell_le le_rfl hb1
  · have := lt_of_toCell_le (k := 3) hb3; norm_num at this ⊢; linarith

theorem default_map_wall_xneg {p : ℚ × ℚ} (h : p.1 < 0) :
    is_wall default_map p = true := by
  rw [is_wall_iff, default_map_row_len, default_map_column_len]
  rcases le_or_lt 5 (toCell p.2) with hy | hy
  · exact Or.inr (Or.inl hy)
  · exact Or.inr (Or.inr (by rw [toCell_of_neg h]; exact default_map_edge_row hy))

theorem default_map_wall_yneg {p : ℚ × ℚ} (h : p.2 < 0) :
    is_wall default_map p = true := by
  rw [is_wall_iff, default_map_row_len, default_map_column_len]
  rcases le_or_lt 5 (toCell p.1) with hx | hx
  · exact Or.inl hx
  · exact Or.inr (Or.inr (by rw [toCell_of_neg h]; exact default_map_edge_col hx))

theorem default_map_wall_xbig {p : ℚ × ℚ} (h : (5 : ℚ) ≤ p.1) :
    is_wall default_map p = true := by
  rw [is_wall_iff, default_map_row_len]
  exact Or.inl (le_toCell_of_le h (by linarith))

theorem default_map_wall_ybig {p : ℚ × ℚ} (h : (5 : ℚ) ≤ p.2) :
    is_wall default_map p = true := by
  rw [is_wall_iff, default_map_column_len]
  exact Or.inr (Or.inl (le_toCell_of_le h (by linarith)))

/-- The all-empty 5×5 grid (no `'X'` cell anywhere): a map on which a
westward ray never meets a wall, because the saturating cast keeps the
marching point at in-bounds column 0. -/
def empty_map : GridMap := List.replicate 5 (List.replicate 5 32)

/-! The distance march: hitting a wall within the fuel bound, and the
absence of any guard distance. -/

/-- If some step `k` below the fuel bound lands on a wall, the march stops
(with some distance). -/
theorem march_isSome_of_hit {cf sf : ℚ → ℚ} {m : GridMap} {pos : ℚ × ℚ}
    {heading : ℚ} :
    ∀ (fuel : ℕ) (dist : ℚ) (k : ℕ), k < fuel →
      is_wall m (move_forward cf sf pos heading (dist + k * (1 / 100))) = true →
      (march cf sf m pos heading dist fuel).isSome = true := by
  intro fuel
  induction fuel with
  | zero => intro dist k hk; exact absurd hk (Nat.not_lt_zero k)
  | succ n ih =>
    intro dist k hk hwall
    rw [march]
    by_cases h0 : is_wall m (move_forward cf sf pos heading dist) = true
    · simp [h0]
    · rw [Bool.not_eq_true] at h0
      simp only [h0, if_neg Bool.false_ne_true, Bool.false_eq_true, if_false]
      match k with
      | 0 =>
        exfalso
        rw [Nat.cast_zero, zero_mul, add_zero] at hwall
        rw [h0] at hwall
        exact Bool.false_ne_true hwall
      | j + 1 =>
        apply ih (dist + 1 / 100) j (by omega)
        have : dist + 1 / 100 + (j : ℚ) * (1 / 100) = dist + ((j : ℚ) + 1) * (1 / 100) := by
          ring
        rw [this]
        have hcast : ((j + 1 : ℕ) : ℚ) = (j : ℚ) + 1 := by push_cast; ring
        rw [hcast] at hwall
        exact hwall

/-- The `while` loop of `distance_to_wall` has no guard distance: on a map
without walls along the ray, no amount of fuel makes it stop.  Heading π
(direction (−1, 0)) from (2, 2) on the all-empty map: the saturating cast
keeps the point at in-bounds column 0 forever. -/
theorem march_empty_none :
    ∀ (fuel : ℕ) (dist : ℚ), 0 ≤ dist →
      march (fun _ => -1) (fun _ => 0) empty_map (2, 2) piF dist fuel = none := by
  intro fuel
  induction fuel with
  | zero => intro dist _; rfl
  | succ n ih =>
    intro dist hd
    rw [march]
    have hco : move_forward (fun _ => (-1 : ℚ)) (fun _ => (0 : ℚ)) (2, 2) piF dist
        = (2 - dist, 2) := by
      simp [move_forward]; ring
    have hwall : is_wall empty_map (2 - dist, 2) = false := by
      rw [is_wall_eq_false]
      have hrow : row_len empty_map = 5 := by decide
      have hcol : column_len empty_map = 5 := by decide
      have htc2 : toCell (2 : ℚ) = 2 := by decide
      have hle : toCell (2 - dist) ≤ 2 := by
        have := toCell_mono (r := 2) (q := 2 - dist) (by linarith)
        omega
      show toCell (2 - dist) < row_len empty_map ∧ toCell (2 : ℚ) < column_len empty_map ∧
        cell empty_map (toCell (2 - dist)) (toCell (2 : ℚ)) ≠ 88
      rw [hrow, hcol, htc2]
      refine ⟨by omega, by omega, ?_⟩
      interval_cases h : toCell (2 - dist) <;> decide
    rw [hco, hwall]
    simp only [Bool.false_eq_true, if_false]
    exact ih (dist + 1 / 100) (by linarith)

/-- C1.  The claim says the fixed-step march of `distance_to_wall` is
bounded by a guard distance so that even a ray that never hits a wall
stops.  The code has no such guard: on a world whose map has no wall in
the ray's path (the all-empty map, player at (2, 2), heading π with
direction (−1, 0)) the loop never stops — after any number `fuel` of
iterations it is still running (`none`), so no guard distance bounds it.
This confirms the spec's §9 note that the unbounded march is a defect of
the source: the claim describes the mandated behaviour, the code lacks
it. -/
theorem c1_march_has_no_guard :
    ∀ fuel : ℕ,
      World.distance_to_wall (fun _ => -1) (fun _ => 0)
        { map := empty_map, player_pos := (2, 2), player_heading := piF,
          player_fov := degs_to_rads 70 } piF fuel = none := by
  intro fuel
  exact march_empty_none fuel 0 le_rfl

/-- The states the program can actually reach: `World::default` is the only
constructor, and the mutating operations are `move_player` (over any
cosine/sine oracle, hence in particular the real one) and the two pans. -/
inductive Reachable : World → Prop where
  | init : Reachable World.default
  | move (cf sf : ℚ → ℚ) (cmd : Heading) {w : World} :
      Reachable w → Reachable (World.move_player cf sf w cmd)
  | panL {w : World} : Reachable w → Reachable w.pan_left
  | panR {w : World} : Reachable w → Reachable w.pan_right

/-- The heading offsets exactly as the claim states them:
Forward = 0, Backward = π, StrafeLeft = −π/2, StrafeRight = +π/2
(π being the `f32` constant the code uses). -/
def command_delta : Heading → ℚ
  | Heading.Forward => 0
  | Heading.Backward => piF
  | Heading.Left => -(piF / 2)
  | Heading.Right => piF / 2

theorem move_player_eq (cf sf : ℚ → ℚ) (w : World) (cmd : Heading) :
    World.move_player cf sf w cmd =
      if is_wall w.map (move_forward cf sf w.player_pos
          (w.player_heading + command_delta cmd) (1 / 5)) = true
      then w
      else { w with player_pos := (move_forward cf sf w.player_pos
                (w.player_heading + command_delta cmd) (1 / 5)) } := by
  have hstep : (2 / 10 : ℚ) = 1 / 5 := by norm_num
  cases cmd <;>
    simp only [World.move_player, command_delta, hstep, zero_sub]

/-- `move_player` either leaves the world unchanged or commits a candidate
it has checked not to be a wall; the map is never modified. -/
theorem move_player_cases (cf sf : ℚ → ℚ) (w : World) (cmd : Heading) :
    World.move_player cf sf w cmd = w ∨
      ((World.move_player cf sf w cmd).map = w.map ∧
        is_wall w.map (World.move_player cf sf w cmd).player_pos = false) := by
  have he := move_player_eq cf sf w cmd
  by_cases hwall : is_wall w.map (move_forward cf sf w.player_pos
      (w.player_heading + command_delta cmd) (1 / 5)) = true
  · left; rw [he, if_pos hwall]
  · rw [Bool.not_eq_true] at hwall
    right
    rw [he, if_neg (by rw [hwall]; exact Bool.false_ne_true)]
    exact ⟨rfl, hwall⟩

theorem reachable_not_in_wall : ∀ w : World, Reachable w →
    is_wall w.map w.player_pos = false := by
  intro w hw
  induction hw with
  | init => decide
  | move cf sf cmd hw ih =>
    rcases move_player_cases cf sf _ cmd with h | ⟨hm, hp⟩
    · rw [h]; exact ih
    · rw [hm]; exact hp
  | panL hw ih => exact ih
  | panR hw ih => exact ih

/-- C3.  In every reachable world the player's position is not a wall, and
no `move_player` call ever commits a position that is a wall. -/
theorem c3_player_never_in_wall (w : World) (hw : Reachable w) :
    is_wall w.map w.player_pos = false ∧
      ∀ (cf sf : ℚ → ℚ) (cmd : Heading),
        is_wall (World.move_player cf sf w cmd).map
          (World.move_player cf sf w cmd).player_pos = false := by
  exact ⟨reachable_not_in_wall w hw,
    fun cf sf cmd => reachable_not_in_wall _ (hw.move cf sf cmd)⟩

/-- Witness for C3 at the constructed world. -/
theorem c3_witness :
    Reachable World.default ∧
      is_wall World.default.map World.default.player_pos = false :=
  ⟨Reachable.init, (c3_player_never_in_wall World.default Reachable.init).1⟩

/-- C4.  `move_player` adds the command's offset to the current heading,
marches a fixed step of 0.2 along the result, commits the candidate only
when it is not a wall, and otherwise is a silent no-op that leaves the
whole world unchanged; heading, map and fov are never modified. -/
theorem c4_move_player_resolution (cf sf : ℚ → ℚ) (w : World) (cmd : Heading) :
    ((World.move_player cf sf w cmd).player_heading = w.player_heading ∧
      (World.move_player cf sf w cmd).map = w.map ∧
      (World.move_player cf sf w cmd).player_fov = w.player_fov) ∧
    (is_wall w.map (move_forward cf sf w.player_pos
        (w.player_heading + command_delta cmd) (1 / 5)) = true →
      World.move_player cf sf w cmd = w) ∧
    (is_wall w.map (move_forward cf sf w.player_pos
        (w.player_heading + command_delta cmd) (1 / 5)) = false →
      (World.move_player cf sf w cmd).player_pos =
        move_forward cf sf w.player_pos
          (w.player_heading + command_delta cmd) (1 / 5)) := by
  have he := move_player_eq cf sf w cmd
  by_cases hwall : is_wall w.map (move_forward cf sf w.player_pos
      (w.player_heading + command_delta cmd) (1 / 5)) = true
  · rw [if_pos hwall] at he
    rw [he]
    exact ⟨⟨rfl, rfl, rfl⟩, fun _ => rfl,
      fun hf => absurd (hwall.symm.trans hf) (by decide)⟩
  · rw [Bool.not_eq_true] at hwall
    rw [if_neg (by rw [hwall]; exact Bool.false_ne_true)] at he
    rw [he]
    exact ⟨⟨rfl, rfl, rfl⟩,
      fun ht => absurd (hwall.symm.trans ht) (by decide), fun _ => rfl⟩

/-- Witness for C4: with a cosine oracle of 5 a forward move from the
default world commits (2 + 5·0.2, 2) = (3, 2); with a cosine oracle of 10
the candidate (4, 2) is a wall and the move is a silent no-op. -/
theorem c4_witness :
    (World.move_player (fun _ => 5) (fun _ => 0) World.default
        Heading.Forward).player_pos = ((3 : ℚ), (2 : ℚ)) ∧
      World.move_player (fun _ => 10) (fun _ => 0) World.default
        Heading.Forward = World.default := by
  constructor
  · have h := (c4_move_player_resolution (fun _ => 5) (fun _ => 0)
      World.default Heading.Forward).2.2
    have hc : move_forward (fun _ => (5 : ℚ)) (fun _ => (0 : ℚ))
        World.default.player_pos
        (World.default.player_heading + command_delta Heading.Forward) (1 / 5)
        = ((3 : ℚ), (2 : ℚ)) := by
      show ((2 : ℚ) + 5 * (1 / 5), (2 : ℚ) + 0 * (1 / 5)) = ((3 : ℚ), (2 : ℚ))
      norm_num
    rw [hc] at h
    rw [h (by decide)]
  · have h := (c4_move_player_resolution (fun _ => 10) (fun _ => 0)
      World.default Heading.Forward).2.1
    have hc : move_forward (fun _ => (10 : ℚ)) (fun _ => (0 : ℚ))
        World.default.player_pos
        (World.default.player_heading + command_delta Heading.Forward) (1 / 5)
        = ((4 : ℚ), (2 : ℚ)) := by
      show ((2 : ℚ) + 10 * (1 / 5), (2 : ℚ) + 0 * (1 / 5)) = ((4 : ℚ), (2 : ℚ))
      norm_num
    rw [hc] at h
    exact h (by decide)

/-- C5 counterexample.  The claim says a negative coordinate truncates to
an out-of-bounds index and therefore counts as wall.  In fact the Rust
`as usize` cast saturates a negative value to 0, an in-bounds index
(0 < row_len), and on a map whose edge cells are empty the point is not a
wall at all: `is_wall` on the all-empty map at (−1/2, 2) is `false`. -/
theorem c5_counterexample :
    toCell (-(1 / 2) : ℚ) = 0 ∧ 0 < row_len default_map ∧
      is_wall empty_map (-(1 / 2), 2) = false := by
  have htc : toCell (-(1 / 2) : ℚ) = 0 := toCell_of_neg (by norm_num)
  refine ⟨htc, by decide, ?_⟩
  rw [is_wall_eq_false]
  show toCell (-(1 / 2) : ℚ) < row_len empty_map ∧
    toCell (2 : ℚ) < column_len empty_map ∧
    cell empty_map (toCell (-(1 / 2) : ℚ)) (toCell (2 : ℚ)) ≠ 88
  rw [htc]
  have htc2 : toCell (2 : ℚ) = 2 := by decide
  rw [htc2]
  exact ⟨by decide, by decide, by decide⟩

/-- C5 (amended).  `is_wall` truncates each coordinate with the saturating
cast: it returns true exactly when a truncated index reaches the grid
bounds or the indexed cell is a Wall; it is total.  A negative coordinate
saturates to the in-bounds index 0 — it still counts as wall on the
default map, but only because that map's edge cells are all walls. -/
theorem c5_is_wall_amended :
    (∀ (m : GridMap) (p : ℚ × ℚ),
        is_wall m p = true ↔
          row_len m ≤ toCell p.1 ∨ column_len m ≤ toCell p.2 ∨
            cell m (toCell p.1) (toCell p.2) = 88) ∧
    (∀ q : ℚ, q < 0 → toCell q = 0) ∧
    (∀ p : ℚ × ℚ, p.1 < 0 ∨ p.2 < 0 → is_wall default_map p = true) := by
  refine ⟨is_wall_iff, fun q hq => toCell_of_neg hq, fun p hp => ?_⟩
  rcases hp with h | h
  · exact default_map_wall_xneg h
  · exact default_map_wall_yneg h

/-- Witness for C5 at concrete points. -/
theorem c5_witness :
    toCell (-1 : ℚ) = 0 ∧ is_wall default_map ((-1 : ℚ), (2 : ℚ)) = true :=
  ⟨c5_is_wall_amended.2.1 (-1) (by norm_num),
    c5_is_wall_amended.2.2 ((-1 : ℚ), (2 : ℚ)) (Or.inl (by norm_num))⟩

/-! The `f32` rounding of the pan step. -/

theorem log2_eq {r : ℚ} {e : ℤ} (h1 : (2 : ℚ) ^ e ≤ r)
    (h2 : r < (2 : ℚ) ^ (e + 1)) : Int.log 2 r = e := by
  have hb : (1 : ℕ) < 2 := one_lt_two
  have hr : 0 < r := lt_of_lt_of_le (zpow_pos (by norm_num) e) h1
  have hcast : ((2 : ℕ) : ℚ) = (2 : ℚ) := by norm_num
  have ha : e ≤ Int.log 2 r := by
    rw [← Int.zpow_le_iff_le_log hb hr, hcast]
    exact h1
  have hb2 : Int.log 2 r < e + 1 := by
    rw [← Int.lt_zpow_iff_log_lt hb hr, hcast]
    exact h2
  omega

/-- Evaluate `rnd32` when the scaled value sits in the round-down half of
an ulp interval: `q` in the binade `[2^e, 2^(e+1))`, and
`n ≤ q / 2^(e-23) < n + 1/2`. -/
theorem rnd32_round_down {q : ℚ} {e n : ℤ} (h1 : (2 : ℚ) ^ e ≤ q)
    (h2 : q < (2 : ℚ) ^ (e + 1)) (he : -126 ≤ e)
    (hn1 : (n : ℚ) ≤ q / 2 ^ (e - 23))
    (hn2 : q / 2 ^ (e - 23) < (n : ℚ) + 1 / 2) :
    rnd32 q = (n : ℚ) * 2 ^ (e - 23) := by
  have hq : 0 < q := lt_of_lt_of_le (zpow_pos (by norm_num) e) h1
  have habs : |q| = q := abs_of_pos hq
  have hlog : Int.log 2 |q| = e := by rw [habs]; exact log2_eq h1 h2
  have hulp : ulpExp q = e - 23 := by
    rw [ulpExp, hlog, max_eq_left (by omega)]
  have hfl : ⌊q / (2 : ℚ) ^ (e - 23)⌋ = n := by
    rw [Int.floor_eq_iff]
    exact ⟨hn1, by linarith⟩
  rw [rnd32, if_neg (ne_of_gt hq), hulp, hfl, if_pos (by linarith)]

theorem rnd32_piF8 : rnd32 (piF / 8) = piF / 8 := by
  have hz : (2 : ℚ) ^ (-25 : ℤ) = 1 / 33554432 := by norm_num
  have h := rnd32_round_down (q := piF / 8) (e := -2) (n := 13176795)
    (by norm_num [piF]) (by norm_num [piF]) (by norm_num)
    (by rw [show (-2 : ℤ) - 23 = -25 by norm_num, hz]; norm_num [piF])
    (by rw [show (-2 : ℤ) - 23 = -25 by norm_num, hz]; norm_num [piF])
  rw [h, show (-2 : ℤ) - 23 = -25 by norm_num, hz]
  norm_num [piF]

theorem rnd32_piF4 : rnd32 (piF / 4) = piF / 4 := by
  have hz : (2 : ℚ) ^ (-24 : ℤ) = 1 / 16777216 := by norm_num
  have h := rnd32_round_down (q := piF / 4) (e := -1) (n := 13176795)
    (by norm_num [piF]) (by norm_num [piF]) (by norm_num)
    (by rw [show (-1 : ℤ) - 23 = -24 by norm_num, hz]; norm_num [piF])
    (by rw [show (-1 : ℤ) - 23 = -24 by norm_num, hz]; norm_num [piF])
  rw [h, show (-1 : ℤ) - 23 = -24 by norm_num, hz]
  norm_num [piF]

/-- The third pan rounds: the exact sum `3 · π/8` needs 26 significant
bits, and rounding to nearest drops the quarter-ulp. -/
theorem rnd32_three_piF8 : rnd32 (3 * (piF / 8)) = 9882596 / 8388608 := by
  have hz : (2 : ℚ) ^ (-23 : ℤ) = 1 / 8388608 := by norm_num
  have h := rnd32_round_down (q := 3 * (piF / 8)) (e := 0) (n := 9882596)
    (by norm_num [piF]) (by norm_num [piF]) (by norm_num)
    (by rw [show (0 : ℤ) - 23 = -23 by norm_num, hz]; norm_num [piF])
    (by rw [show (0 : ℤ) - 23 = -23 by norm_num, hz]; norm_num [piF])
  rw [h, show (0 : ℤ) - 23 = -23 by norm_num, hz]
  norm_num

/-- Absorption: once the heading reaches `2^23`, adding `π/8 ≈ 0.3927` is
below half an ulp (which is 1 in that binade) and the rounded sum is
`2^23` again. -/
theorem f32add_absorb : f32add (2 ^ 23) (piF / 8) = (2 ^ 23 : ℚ) := by
  rw [f32add]
  have hz : (2 : ℚ) ^ (0 : ℤ) = 1 := zpow_zero 2
  have h := rnd32_round_down (q := 2 ^ 23 + piF / 8) (e := 23) (n := 8388608)
    (by norm_num [piF]) (by norm_num [piF]) (by norm_num)
    (by rw [show (23 : ℤ) - 23 = 0 by norm_num, hz]; norm_num [piF])
    (by rw [show (23 : ℤ) - 23 = 0 by norm_num, hz]; norm_num [piF])
  rw [h, show (23 : ℤ) - 23 = 0 by norm_num, hz]
  norm_num

/-- The default world with its heading panned up to `2^23` (a
representable `f32` value). -/
def world_heading_pow23 : World :=
  { map := default_map, player_pos := (2, 2), player_heading := 2 ^ 23,
    player_fov := degs_to_rads 70 }

/-- The default world (heading 0), spelled out. -/
def world_heading_zero : World :=
  { map := default_map, player_pos := (2, 2), player_heading := 0,
    player_fov := degs_to_rads 70 }

/-- C10 counterexample.  The claim says every `pan_right` adds a fixed
step of π/8 to the heading and repeated pans grow its magnitude without
bound.  In `f32` arithmetic both parts fail: at heading `2^23` the
addition absorbs completely — `pan_right` returns the world unchanged,
a fixed point, so the heading never grows past `2^23` from there — and
already the third pan from heading 0 lands off the exact multiple
`3 · π/8` because the rounded sum drops a quarter-ulp. -/
theorem c10_counterexample :
    World.pan_right world_heading_pow23 = world_heading_pow23 ∧
    (World.pan_right^[3] world_heading_zero).player_heading
      ≠ 3 * (piF / 8) := by
  constructor
  · have hh : world_heading_pow23.player_heading = 2 ^ 23 := rfl
    rw [World.pan_right, hh, f32add_absorb, ← hh]
  · have h1 : f32add 0 (piF / 8) = piF / 8 := by
      rw [f32add, zero_add, rnd32_piF8]
    have h2 : f32add (piF / 8) (piF / 8) = piF / 4 := by
      rw [f32add, show piF / 8 + piF / 8 = piF / 4 by ring, rnd32_piF4]
    have h3 : f32add (piF / 4) (piF / 8) = 9882596 / 8388608 := by
      rw [f32add, show piF / 4 + piF / 8 = 3 * (piF / 8) by ring,
        rnd32_three_piF8]
    rw [show (3 : ℕ) = 2 + 1 from rfl, Function.iterate_succ_apply',
      show (2 : ℕ) = 1 + 1 from rfl, Function.iterate_succ_apply',
      Function.iterate_one]
    show f32add (f32add (f32add 0 (piF / 8)) (piF / 8)) (piF / 8)
      ≠ 3 * (piF / 8)
    rw [h1, h2, h3]
    norm_num [piF]

/-- C10 (amended).  `pan_left`/`pan_right` modify only the player heading
— position, fov and map are left unchanged by any number of pans — and
the step is the `f32` constant π/8, applied by one correctly rounded
`f32` addition; no normalization into a bounded range ever runs.  But the
heading neither equals `heading₀ ± n·π/8` in general (the rounded sum
drifts from the exact multiple already at the third pan, see the
counterexample) nor grows without bound: `2^23` is a fixed point of
`pan_right` — the rounded addition absorbs the step — so from there the
heading never exceeds `2^23` no matter how many pans run. -/
theorem c10_pan_only_heading_bounded :
    (∀ w : World,
        w.pan_left = { w with player_heading := f32sub w.player_heading (piF / 8) }) ∧
    (∀ w : World,
        w.pan_right = { w with player_heading := f32add w.player_heading (piF / 8) }) ∧
    (∀ (w : World) (n : ℕ),
        (World.pan_right^[n] w).map = w.map ∧
        (World.pan_right^[n] w).player_pos = w.player_pos ∧
        (World.pan_right^[n] w).player_fov = w.player_fov ∧
        (World.pan_left^[n] w).map = w.map ∧
        (World.pan_left^[n] w).player_pos = w.player_pos ∧
        (World.pan_left^[n] w).player_fov = w.player_fov) ∧
    f32add (2 ^ 23) (piF / 8) = (2 ^ 23 : ℚ) ∧
    (∀ w : World, w.player_heading = 2 ^ 23 →
        ∀ n : ℕ, (World.pan_right^[n] w).player_heading = 2 ^ 23) := by
  have hfix : ∀ w : World, w.player_heading = 2 ^ 23 →
      ∀ n : ℕ, (World.pan_right^[n] w).player_heading = 2 ^ 23 := by
    intro w hw n
    induction n with
    | zero => exact hw
    | succ k ih =>
      rw [Function.iterate_succ_apply']
      show f32add (World.pan_right^[k] w).player_heading (piF / 8) = 2 ^ 23
      rw [ih, f32add_absorb]
  refine ⟨fun _ => rfl, fun _ => rfl, ?_, f32add_absorb, hfix⟩
  intro w n
  induction n with
  | zero => exact ⟨rfl, rfl, rfl, rfl, rfl, rfl⟩
  | succ k ih =>
    obtain ⟨h1, h2, h3, h4, h5, h6⟩ := ih
    rw [Function.iterate_succ_apply', Function.iterate_succ_apply']
    exact ⟨h1, h2, h3, h4, h5, h6⟩

/-- Witness for C10: a million pans from heading `2^23` leave the heading
at `2^23`. -/
theorem c10_witness :
    (World.pan_right^[1000000] world_heading_pow23).player_heading
      = 2 ^ 23 :=
  c10_pan_only_heading_bounded.2.2.2.2 world_heading_pow23 rfl 1000000

/-- C2 counterexample.  The claim says `generate_ray_angles(1, f)` yields
the single angle 0; in the code the step is `fov / 0.0`, which is
non-finite, and the single produced angle (`∞ * 0 + lower_half`) is NaN,
not 0. -/
theorem c2_counterexample : generate_ray_angles 1 1 ≠ [some 0] := by
  decide

/-- The angle at index `i` (for `1 < n`, every produced angle is finite). -/
theorem generate_ray_angles_elem {n : ℕ} (i : ℕ) (f : ℚ) (hn : 1 < n)
    (hi : i < n) :
    (generate_ray_angles n f)[i]? =
      some (some (f / ((n : ℚ) - 1) * i - f / 2)) := by
  have hstep : (n - 1 : ℕ) ≠ 0 := by omega
  have hcast : ((n - 1 : ℕ) : ℚ) = (n : ℚ) - 1 := by
    push_cast [Nat.cast_sub (by omega : 1 ≤ n)]
    ring
  have hrange : (List.range n)[i]? = some i := by
    rw [List.getElem?_eq_getElem (by simpa using hi)]
    simp
  simp only [generate_ray_angles, List.getElem?_map, hrange, Option.map_some, Option.map_some']
  rw [if_neg hstep, hcast]
  have harith : f / ((n : ℚ) - 1) * i + f / 2 * (-1)
      = f / ((n : ℚ) - 1) * i - f / 2 := by ring
  rw [harith]

/-- C2 (amended).  For every `n > 1` and every fov `f`,
`generate_ray_angles(n, f)` yields exactly `n` angles, the first is
−f/2, the last is +f/2, and consecutive angles differ by exactly
f/(n−1).  For `n = 1`, however, the single produced angle is not 0 but
the non-finite result of dividing by `n − 1 = 0` (NaN, modelled `none`). -/
theorem c2_ray_angles_amended (n : ℕ) (f : ℚ) (hn : 1 < n) :
    (generate_ray_angles n f).length = n ∧
    (generate_ray_angles n f).head? = some (some (-(f / 2))) ∧
    (generate_ray_angles n f).getLast? = some (some (f / 2)) ∧
    (∀ i : ℕ, i + 1 < n →
      ∃ a b : ℚ, (generate_ray_angles n f)[i]? = some (some a) ∧
        (generate_ray_angles n f)[i + 1]? = some (some b) ∧
        b - a = f / ((n : ℚ) - 1)) := by
  have hlen : (generate_ray_angles n f).length = n := by
    simp only [generate_ray_angles, List.length_map, List.length_range]
  have hne : ((n : ℚ) - 1) ≠ 0 := by
    have : (2 : ℚ) ≤ (n : ℚ) := by exact_mod_cast hn
    intro h
    nlinarith
  refine ⟨hlen, ?_, ?_, ?_⟩
  · rw [List.head?_eq_getElem?, generate_ray_angles_elem 0 f hn (by omega)]
    norm_num
  · rw [List.getLast?_eq_getElem?, hlen,
      generate_ray_angles_elem (n - 1) f hn (by omega)]
    have hcast : ((n - 1 : ℕ) : ℚ) = (n : ℚ) - 1 := by
      push_cast [Nat.cast_sub (by omega : 1 ≤ n)]
      ring
    rw [hcast, div_mul_cancel₀ f hne]
    congr 2
    ring
  · intro i hi
    refine ⟨f / ((n : ℚ) - 1) * i - f / 2,
      f / ((n : ℚ) - 1) * (i + 1) - f / 2, ?_, ?_, by ring⟩
    · exact generate_ray_angles_elem i f hn (by omega)
    · rw [generate_ray_angles_elem (i + 1) f hn (by omega)]
      push_cast
      ring_nf

/-- Witness for C2 at `n = 3`, `f = 3`. -/
theorem c2_witness :
    (generate_ray_angles 3 3).length = 3 ∧
      (generate_ray_angles 3 3).head? = some (some (-((3 : ℚ) / 2))) := by
  have h := c2_ray_angles_amended 3 3 (by decide)
  exact ⟨h.1, h.2.1⟩

/-! The input state tracker of src/lib.rs. -/

/-- `MyKeys` from src/lib.rs: the recognized logical keys. -/
inductive MyKeys where
  | KeyA
  | KeyZ
  | KeyE
  | KeyQ
  | KeyS
  | KeyD
  | Up
  | Down
  | Left
  | Right
deriving DecidableEq

/-- The two key sets of `WinFbx` (src/lib.rs): `pressed_keys` is the held
set, `released_keys` the pending releases ("Held" and "PendingRelease" in
the spec).  Rust `HashSet`s are modelled as `Finset`s. -/
structure KeyState where
  pressed_keys : Finset MyKeys
  released_keys : Finset MyKeys
deriving DecidableEq

/-- `WinFbx::process_kbd_input`: a press inserts into `pressed_keys`, a
release inserts into `released_keys` without removing from
`pressed_keys`. -/
def process_kbd_input (s : KeyState) (k : MyKeys) (pressed : Bool) :
    KeyState :=
  if pressed then { s with pressed_keys := insert k s.pressed_keys }
  else { s with released_keys := insert k s.released_keys }

/-- The key-set maintenance of `WinFbx::on_tick` (src/lib.rs): the held
set as it stands is handed to the app, then
`pressed_keys.retain(|c| !released_keys.contains(c))` and
`released_keys.clear()` run.  Returns the snapshot and the new state. -/
def drain_tick (s : KeyState) : Finset MyKeys × KeyState :=
  (s.pressed_keys,
    { pressed_keys := s.pressed_keys \ s.released_keys, released_keys := ∅ })

/-- C6.  A key pressed and then released before the drain of the same tick
is reported held by that drain (exactly once — the sets are sets), and
after the drain it is gone from the held set; in general the drain
returns the held set as it stood, then sets
Held := Held − PendingRelease and PendingRelease := ∅. -/
theorem c6_press_release_same_tick (s : KeyState) (k : MyKeys) :
    (drain_tick (process_kbd_input (process_kbd_input s k true) k false)).1 =
      (process_kbd_input (process_kbd_input s k true) k false).pressed_keys ∧
    k ∈ (drain_tick
        (process_kbd_input (process_kbd_input s k true) k false)).1 ∧
    (drain_tick
        (process_kbd_input (process_kbd_input s k true) k false)).2.pressed_keys =
      (process_kbd_input (process_kbd_input s k true) k false).pressed_keys \
        (process_kbd_input (process_kbd_input s k true) k false).released_keys ∧
    (drain_tick
        (process_kbd_input (process_kbd_input s k true) k false)).2.released_keys
      = ∅ ∧
    k ∉ (drain_tick
        (process_kbd_input (process_kbd_input s k true) k false)).2.pressed_keys := by
  refine ⟨rfl, ?_, rfl, rfl, ?_⟩
  · show k ∈ insert k s.pressed_keys
    exact Finset.mem_insert_self k _
  · show k ∉ insert k s.pressed_keys \ insert k s.released_keys
    rw [Finset.mem_sdiff]
    push_neg
    intro _
    exact Finset.mem_insert_self k _

/-- C7 counterexample.  The claim says draining twice with no intervening
events yields an empty snapshot the second time, for every starting
state.  False: a key that was pressed and never released stays held
across drains — from the fresh state, press Up, drain twice: the second
snapshot still contains Up. -/
theorem c7_counterexample :
    (drain_tick
        (drain_tick (process_kbd_input ⟨∅, ∅⟩ MyKeys.Up true)).2).1 ≠ ∅ := by
  decide

/-- C7 (amended).  The drain is idempotent on the tracker state, not on
the snapshot: after one drain PendingRelease is empty, so a second drain
with no intervening events leaves the state unchanged, and its snapshot
is Held − PendingRelease of the original state — empty only when every
held key had a pending release, not in general. -/
theorem c7_drain_idempotent_on_state (s : KeyState) :
    (drain_tick (drain_tick s).2).2 = (drain_tick s).2 ∧
    (drain_tick (drain_tick s).2).1 = s.pressed_keys \ s.released_keys := by
  constructor
  · show (⟨(s.pressed_keys \ s.released_keys) \ ∅, ∅⟩ : KeyState)
      = (⟨s.pressed_keys \ s.released_keys, ∅⟩ : KeyState)
    rw [Finset.sdiff_empty]
  · rfl

/-! The column projector of src/main.rs. -/

/-- An RGBA8 pixel (`rgb::RGBA8`). -/
structure RGBA where
  r : ℕ
  g : ℕ
  b : ℕ
  a : ℕ
deriving DecidableEq

/-- The hard-coded background colour of `draw_centered_col`:
`rgb::RGBA { r: 0, g: 0, b: 255, a: 255 }`. -/
def void_color : RGBA := ⟨0, 0, 255, 255⟩

/-- `put_pixel1` from src/main.rs (identical to `put_pixel` in src/lib.rs):
writes `color` at index `width * y + x` of the pixel buffer.  An index at
or past the end of the buffer panics in Rust; the panic is modelled as
`none`. -/
def put_pixel1 (frame : List RGBA) (width x y : ℕ) (color : RGBA) :
    Option (List RGBA) :=
  if width * y + x < frame.length then some (frame.set (width * y + x) color)
  else none

/-- One `for_each` loop of `draw_centered_col`: paint `color` at column
`x` of every row in `ys`, propagating a panic. -/
def paint_rows (frame : List RGBA) (width x : ℕ) (color : RGBA)
    (ys : List ℕ) : Option (List RGBA) :=
  ys.foldlM (fun f y => put_pixel1 f width x y color) frame

/-- `draw_centered_col` from src/main.rs: `mid = height / 2`,
`up_bound = mid - col_height / 2`, `low_bound = mid + col_height / 2`
(usize arithmetic); rows `[0, up_bound)` and `[low_bound, height)` get the
hard-coded blue `void_color`, rows `[up_bound, low_bound)` get `color`.
The `usize` subtraction `mid - col_height / 2` underflows (a panic in
debug builds) when `col_height / 2 > mid`; the underflow is modelled as
`none`. -/
def draw_centered_col (frame : List RGBA) (width height x col_height : ℕ)
    (color : RGBA) : Option (List RGBA) :=
  let mid := height / 2
  if col_height / 2 ≤ mid then
    let up_bound := mid - col_height / 2
    let low_bound := mid + col_height / 2
    (paint_rows frame width x void_color (List.range up_bound)).bind fun f1 =>
      (paint_rows f1 width x color
          (List.range' up_bound (low_bound - up_bound))).bind fun f2 =>
        paint_rows f2 width x void_color
          (List.range' low_bound (height - low_bound))
  else none

theorem paint_rows_spec (width x : ℕ) (color d : RGBA) :
    ∀ (ys : List ℕ) (frame : List RGBA),
      (∀ y ∈ ys, width * y + x < frame.length) →
      ∃ f2, paint_rows frame width x color ys = some f2 ∧
        f2.length = frame.length ∧
        (∀ i : ℕ, (∀ y ∈ ys, i ≠ width * y + x) →
          f2.getD i d = frame.getD i d) ∧
        (∀ y ∈ ys, f2.getD (width * y + x) d = color) := by
  intro ys
  induction ys with
  | nil =>
    intro frame _
    exact ⟨frame, rfl, rfl, fun _ _ => rfl, fun y hy => absurd hy
      (List.not_mem_nil y)⟩
  | cons y ys ih =>
    intro frame hin
    have hylt : width * y + x < frame.length :=
      hin y (List.mem_cons_self y ys)
    have hput : put_pixel1 frame width x y color
        = some (frame.set (width * y + x) color) := if_pos hylt
    set frame1 := frame.set (width * y + x) color with hf1
    have hlen1 : frame1.length = frame.length := List.length_set frame _ _
    obtain ⟨f2, hsome, hlen, huntouched, hpainted⟩ :=
      ih frame1 (fun y' hy' => by
        rw [hlen1]; exact hin y' (List.mem_cons_of_mem y hy'))
    have hfold : paint_rows frame width x color (y :: ys) = some f2 := by
      rw [paint_rows, List.foldlM_cons, hput]
      exact hsome
    refine ⟨f2, hfold, hlen.trans hlen1, ?_, ?_⟩
    · intro i hi
      have h1 : f2.getD i d = frame1.getD i d :=
        huntouched i (fun y' hy' => hi y' (List.mem_cons_of_mem y hy'))
      have h2 : frame1.getD i d = frame.getD i d := by
        rw [hf1]
        have hne : i ≠ width * y + x := hi y (List.mem_cons_self y ys)
        rw [List.getD_eq_getElem?_getD, List.getD_eq_getElem?_getD,
          List.getElem?_set_ne (fun h => hne h.symm)]
      exact h1.trans h2
    · intro y' hy'
      rcases List.mem_cons.mp hy' with hy' | hy'
      · subst hy'
        by_cases hcase : ∀ y'' ∈ ys, width * y' + x ≠ width * y'' + x
        · have h1 : f2.getD (width * y' + x) d = frame1.getD (width * y' + x) d :=
            huntouched _ hcase
          have h2 : frame1.getD (width * y' + x) d = color := by
            rw [hf1, List.getD_eq_getElem?_getD, List.getElem?_set_self hylt]
            rfl
          exact h1.trans h2
        · push_neg at hcase
          obtain ⟨y'', hy'', heq⟩ := hcase
          rw [heq]
          exact hpainted y'' hy''
      · exact hpainted y' hy'

theorem draw_centered_col_spec (frame : List RGBA) (w h x ch : ℕ)
    (c d : RGBA) (hx : x < w) (hch : ch ≤ h) (hlen : frame.length = w * h) :
    ∃ f3, draw_centered_col frame w h x ch c = some f3 ∧
      f3.length = w * h ∧
      ∀ y : ℕ, y < h → f3.getD (w * y + x) d =
        if h / 2 - ch / 2 ≤ y ∧ y < h / 2 + ch / 2 then c else void_color := by
  have hw : 0 < w := Nat.pos_of_ne_zero (by omega)
  have hguard : ch / 2 ≤ h / 2 := Nat.div_le_div_right hch
  have hinj : ∀ y1 y2 : ℕ, w * y1 + x = w * y2 + x → y1 = y2 := by
    intro y1 y2 he
    exact Nat.eq_of_mul_eq_mul_left hw (Nat.add_right_cancel he)
  have hidx : ∀ y : ℕ, y < h → w * y + x < w * h := by
    intro y hy
    calc w * y + x < w * y + w := by omega
      _ = w * (y + 1) := by ring
      _ ≤ w * h := Nat.mul_le_mul_left w (by omega)
  have hup_le : h / 2 - ch / 2 ≤ h / 2 := Nat.sub_le _ _
  have hlow_le : h / 2 + ch / 2 ≤ h := by omega
  obtain ⟨f1, hs1, hl1, hu1, hp1⟩ :=
    paint_rows_spec w x void_color d (List.range (h / 2 - ch / 2)) frame
      (by
        intro y hy
        rw [List.mem_range] at hy
        rw [hlen]
        exact hidx y (by omega))
  obtain ⟨f2, hs2, hl2, hu2, hp2⟩ :=
    paint_rows_spec w x c d
      (List.range' (h / 2 - ch / 2) ((h / 2 + ch / 2) - (h / 2 - ch / 2))) f1
      (by
        intro y hy
        rw [List.mem_range'_1] at hy
        rw [hl1, hlen]
        exact hidx y (by omega))
  obtain ⟨f3, hs3, hl3, hu3, hp3⟩ :=
    paint_rows_spec w x void_color d
      (List.range' (h / 2 + ch / 2) (h - (h / 2 + ch / 2))) f2
      (by
        intro y hy
        rw [List.mem_range'_1] at hy
        rw [hl2, hl1, hlen]
        exact hidx y (by omega))
  refine ⟨f3, ?_, by rw [hl3, hl2, hl1, hlen], ?_⟩
  · show (if ch / 2 ≤ h / 2 then _ else none) = some f3
    rw [if_pos hguard, hs1, Option.some_bind, hs2, Option.some_bind, hs3]
  · intro y hy
    by_cases hy1 : y < h / 2 - ch / 2
    · have h3 : f3.getD (w * y + x) d = f2.getD (w * y + x) d := by
        apply hu3
        intro y' hy' heq
        rw [List.mem_range'_1] at hy'
        have := hinj y y' heq
        omega
      have h2 : f2.getD (w * y + x) d = f1.getD (w * y + x) d := by
        apply hu2
        intro y' hy' heq
        rw [List.mem_range'_1] at hy'
        have := hinj y y' heq
        omega
      have h1 : f1.getD (w * y + x) d = void_color :=
        hp1 y (List.mem_range.mpr hy1)
      rw [h3, h2, h1, if_neg (by omega)]
    · by_cases hy2 : y < h / 2 + ch / 2
      · have h3 : f3.getD (w * y + x) d = f2.getD (w * y + x) d := by
          apply hu3
          intro y' hy' heq
          rw [List.mem_range'_1] at hy'
          have := hinj y y' heq
          omega
        have h2 : f2.getD (w * y + x) d = c := by
          apply hp2
          rw [List.mem_range'_1]
          omega
        rw [h3, h2, if_pos (by omega)]
      · have h3 : f3.getD (w * y + x) d = void_color := by
          apply hp3
          rw [List.mem_range'_1]
          omega
        rw [h3, if_neg (by omega)]

/-- C8 counterexample.  The claim says `columnHeight == height` paints the
whole column `wallColor`.  With an odd height this fails: for height 5,
column height 5, the bottom row (row 4) is painted the hard-coded
background colour, not the wall colour, because `low_bound =
5/2 + 5/2 = 4 < 5` in integer arithmetic. -/
theorem c8_counterexample :
    Option.map (fun g => g.getD (1 * 4 + 0) void_color)
        (draw_centered_col (List.replicate 5 ⟨0, 255, 0, 255⟩) 1 5 0 5
          ⟨255, 0, 0, 255⟩)
      = some void_color ∧ void_color ≠ ⟨255, 0, 0, 255⟩ :=
  ⟨by decide, by decide⟩

/-- C8 (amended).  For a buffer of width×height pixels, a column `x <
width` and `columnHeight ≤ height`, `draw_centered_col` paints, in the
integer arithmetic the code uses (`mid = height / 2`,
`top = mid − columnHeight / 2`, `bottom = mid + columnHeight / 2`), the
colour on rows `[top, bottom)` of column `x` and the background on the
rest.  `columnHeight = 0` leaves the whole column background;
`columnHeight = height` paints the whole column only when `height` is
even — for odd `height` the bottom row `height − 1` stays background. -/
theorem c8_draw_centered_col_amended (frame : List RGBA) (w h x ch : ℕ)
    (c : RGBA) (hx : x < w) (hch : ch ≤ h) (hlen : frame.length = w * h)
    (y : ℕ) (hy : y < h) :
    Option.map (fun g => g.getD (w * y + x) void_color)
        (draw_centered_col frame w h x ch c)
      = some (if h / 2 - ch / 2 ≤ y ∧ y < h / 2 + ch / 2 then c
              else void_color) := by
  obtain ⟨f3, hs, hl, hval⟩ :=
    draw_centered_col_spec frame w h x ch c void_color hx hch hlen
  rw [hs, Option.map_some']
  exact congrArg some (hval y hy)

/-- Witness for C8: a 2×2 buffer, column 1, column height 2 — the row
y = 0 of that column gets the wall colour. -/
theorem c8_witness :
    Option.map (fun g => g.getD (2 * 0 + 1) void_color)
        (draw_centered_col (List.replicate 4 void_color) 2 2 1 2
          ⟨255, 0, 0, 255⟩)
      = some (⟨255, 0, 0, 255⟩ : RGBA) := by
  have h := c8_draw_centered_col_amended (List.replicate 4 void_color) 2 2 1 2
    ⟨255, 0, 0, 255⟩ (by decide) (by decide) (by decide) 0 (by decide)
  simpa using h

/-! The redraw step of src/lib.rs and the safety claim. -/

/-- The scheduler-relevant state of `WinFbx`: the dirty flag, the key
tracker, and the app's world. -/
structure FbState where
  needs_render : Bool
  keys : KeyState
  world : World

/-- `WinFbx::on_redraw`: when the dirty flag is set, draw, then present;
a failed present is logged and the method returns early (the flag stays
set), otherwise the flag is cleared.  The present outcome is the
parameter `render_ok`. -/
def on_redraw (s : FbState) (render_ok : Bool) : FbState :=
  if s.needs_render then
    if render_ok then { s with needs_render := false } else s
  else { s with needs_render := false }

/-- C9.  No core operation is fatal: the pixel write succeeds whenever the
index is inside the buffer; the column draw succeeds for every argument
it can receive (`x < width`, clamped `columnHeight ≤ height`, a buffer of
`width * height` pixels); on the constructed world's map the distance
march stops within 1001 steps for every position the engine can hold and
every direction with `max(|cos|, |sin|) ≥ 1/2` (true of every real
cosine/sine pair); and a failed present leaves the key tracker and the
world untouched, so the failure does not propagate into the tick
scheduler. -/
theorem c9_core_not_fatal :
    (∀ (frame : List RGBA) (w x y : ℕ) (c : RGBA),
        w * y + x < frame.length → (put_pixel1 frame w x y c).isSome = true) ∧
    (∀ (frame : List RGBA) (w h x ch : ℕ) (c : RGBA),
        x < w → ch ≤ h → frame.length = w * h →
        (draw_centered_col frame w h x ch c).isSome = true) ∧
    (∀ (cf sf : ℚ → ℚ) (pos : ℚ × ℚ) (hd θ fv : ℚ),
        is_wall default_map pos = false →
        1 / 2 ≤ |cf θ| ∨ 1 / 2 ≤ |sf θ| →
        (World.distance_to_wall cf sf
          { map := default_map, player_pos := pos, player_heading := hd,
            player_fov := fv } θ 1001).isSome = true) ∧
    (∀ (s : FbState) (render_ok : Bool),
        (on_redraw s render_ok).keys = s.keys ∧
        (on_redraw s render_ok).world = s.world) := by
  refine ⟨?_, ?_, ?_, ?_⟩
  · intro frame w x y c hlt
    rw [put_pixel1, if_pos hlt]
    rfl
  · intro frame w h x ch c hx hch hlen
    obtain ⟨f3, hs, -, -⟩ := draw_centered_col_spec frame w h x ch c
      void_color hx hch hlen
    rw [hs]
    rfl
  · intro cf sf pos hd θ fv hpos hdir
    obtain ⟨h1, h2, h3, h4⟩ := default_map_pos_bounds hpos
    show (march cf sf default_map pos θ 0 1001).isSome = true
    apply march_isSome_of_hit 1001 0 1000 (by omega)
    have hdist : (0 : ℚ) + ((1000 : ℕ) : ℚ) * (1 / 100) = 10 := by
      push_cast
      norm_num
    rw [hdist]
    show is_wall default_map (pos.1 + cf θ * 10, pos.2 + sf θ * 10) = true
    rcases hdir with hc | hs
    · rcases le_abs.mp hc with hc1 | hc2
      · apply default_map_wall_xbig
        show (5 : ℚ) ≤ pos.1 + cf θ * 10
        nlinarith
      · apply default_map_wall_xneg
        show pos.1 + cf θ * 10 < 0
        nlinarith
    · rcases le_abs.mp hs with hs1 | hs2
      · apply default_map_wall_ybig
        show (5 : ℚ) ≤ pos.2 + sf θ * 10
        nlinarith
      · apply default_map_wall_yneg
        show pos.2 + sf θ * 10 < 0
        nlinarith
  · intro s render_ok
    cases hnr : s.needs_render <;> cases render_ok <;>
      simp [on_redraw, hnr]

/-- Witness for C9 at concrete inputs. -/
theorem c9_witness :
    (put_pixel1 [void_color] 1 0 0 void_color).isSome = true ∧
    (draw_centered_col (List.replicate 4 void_color) 2 2 1 2
        void_color).isSome = true ∧
    (World.distance_to_wall (fun _ => 1) (fun _ => 0)
        { map := default_map, player_pos := (2, 2), player_heading := 0,
          player_fov := 0 } 0 1001).isSome = true ∧
    ((on_redraw ⟨true, ⟨∅, ∅⟩, World.default⟩ false).keys
        = (⟨∅, ∅⟩ : KeyState) ∧
      (on_redraw ⟨true, ⟨∅, ∅⟩, World.default⟩ false).world
        = World.default) :=
  ⟨c9_core_not_fatal.1 [void_color] 1 0 0 void_color (by decide),
    c9_core_not_fatal.2.1 (List.replicate 4 void_color) 2 2 1 2 void_color
      (by decide) (by decide) (by decide),
    c9_core_not_fatal.2.2.1 (fun _ => 1) (fun _ => 0) (2, 2) 0 0 0
      (by decide) (Or.inl (by norm_num)),
    c9_core_not_fatal.2.2.2 ⟨true, ⟨∅, ∅⟩, World.default⟩ false⟩

end Chinchilib
